import Mathlib

/-
Verification of the core of the clang-tidy-visualizer extension.

Shallow embedding of:
  * ProcessUtils (src/unnamed/part_000, second document):
      executeCommand, executeParallel, splitArray
  * ClangTidyRunner.runParallel batching (src/src/core/runner/ClangTidyRunner.ts)
  * TextParser (src/unnamed/part_003):
      parseClangTidyText, transformTextToDiagnostics,
      enrichDiagnosticsWithSourceCode, validateSeverity
  * runClangTidyAnalysis outcome decision (src/src/extension.ts)

JavaScript strings are modelled as `List Char` (named `Str` below); the
file system is a pure function from path to file content, with read
failures modelled by `Except`.
-/

abbrev Str := List Char

/-- Model of the `ProcessResult` interface of processUtils
(stdout, stderr, exitCode, duration). -/
structure ProcessResult where
  stdout : Str
  stderr : Str
  exitCode : Int
  duration : Nat
deriving Repr, DecidableEq

/- ---------------------------------------------------------------
   ProcessUtils.executeCommand (part_000 lines 325-364).

   The child process either emits an `error` event (the returned promise
   rejects with the error) or a `close` event carrying an exit code that
   is a number or null; on close the promise resolves with
   `exitCode: exitCode || 0`.  The behaviour of the spawned child is a
   parameter of the model. -/

/-- What the spawned child process does: either the `error` event fires
(spawn failure), or the `close` event fires with an optional numeric exit
code (`null` when the child was terminated by a signal), having produced
the accumulated stdout/stderr and taken `duration` milliseconds. -/
inductive SpawnBehavior where
  | errored (msg : Str)
  | closed (code : Option Int) (stdout stderr : Str) (duration : Nat)
deriving Repr, DecidableEq

/-- Model of the JavaScript expression `exitCode || 0` applied to the
`close` event's code (a number or `null`): `null` and `0` are falsy. -/
def jsOrZero (code : Option Int) : Int :=
  match code with
  | none => 0
  | some k => if k = 0 then 0 else k

/-- `ProcessUtils.executeCommand`: rejects on the `error` event, resolves
on `close` with `exitCode || 0`. -/
def executeCommand (b : SpawnBehavior) : Except Str ProcessResult :=
  match b with
  | .errored msg => .error msg
  | .closed code stdout stderr duration =>
      .ok { stdout := stdout, stderr := stderr,
            exitCode := jsOrZero code, duration := duration }

/- ---------------------------------------------------------------
   ProcessUtils.executeParallel (part_000 lines 369-436).

   `tasks` is abstracted to its indices 0..n-1; the i-th task's invocation
   outcome is `r i` (`.error` = executeCommand rejected).  The try/catch
   in executeNext (lines 388-407) turns a rejection into the synthetic
   result { stdout: '', stderr: errorMsg, exitCode: 1, duration: 0 }. -/

/-- One task execution as seen by `executeNext`: the awaited
`executeCommand` result, with the catch block's synthetic result on
rejection (part_000 lines 399-407). -/
def runTask (r : Nat → Except Str ProcessResult) (i : Nat) : ProcessResult :=
  match r i with
  | .ok p => p
  | .error msg => { stdout := [], stderr := msg, exitCode := 1, duration := 0 }

/-- Small-step model of the worker pool.  `inflight` holds the indices of
tasks currently being awaited by some worker; `next` is the index of the
head of the shared queue; `acc` is the `results` array, which the source
fills by `results.push(result)` in the order completions happen
(part_000 line 398).  Each schedule entry picks which in-flight task's
`await` resolves next (`c` selects the head of `inflight.rotate c`, so
every in-flight task is selectable); its worker then pushes the result
and synchronously shifts the next queued task, which joins `inflight`. -/
def poolGo (f : Nat → R) (n : Nat) :
    List Nat → List Nat → Nat → List R → List R
  | [], _, _, acc => acc
  | _ :: _, [], _, acc => acc
  | c :: sched, inflight@(_ :: _), next, acc =>
      match inflight.rotate c with
      | [] => acc
      | t :: rest =>
          poolGo f n sched
            (rest ++ (if next < n then [next] else []))
            (if next < n then next + 1 else next)
            (acc ++ [f t])

/-- `ProcessUtils.executeParallel` on `n` tasks with `maxWorkers = W`:
`min W n` workers each synchronously shift one task off the queue
(part_000 lines 420-425), then completions interleave per the schedule.
`f i` is the result recorded for task `i`. -/
def executeParallel (f : Nat → R) (n W : Nat) (sched : List Nat) : List R :=
  poolGo f n sched (List.range (min W n)) (min W n) []

/- ---------------------------------------------------------------
   ProcessUtils.splitArray (part_000 lines 469-475) and the batching in
   ClangTidyRunner.runParallel (ClangTidyRunner.ts lines 66-68). -/

/-- `ProcessUtils.splitArray`: `for (i = 0; i < length; i += batchSize)
push(array.slice(i, i + batchSize))`.  For `batchSize = 0` the source
loop never terminates on a non-empty array; that case is unreachable
from `runParallel` (batch size is 0 only when the file list is empty)
and the model returns `[]` there. -/
def splitArray : List α → Nat → List (List α)
  | [], _ => []
  | _ :: _, 0 => []
  | x :: xs, b + 1 =>
      ((x :: xs).take (b + 1)) :: splitArray ((x :: xs).drop (b + 1)) (b + 1)
termination_by l _ => l.length
decreasing_by
  simp only [List.drop, List.length_drop, List.length_cons]
  omega

/-- `Math.ceil(n / j)` on natural inputs, `j ≥ 1`. -/
def ceilDiv (n j : Nat) : Nat := (n + j - 1) / j

/-- The batch list built by `ClangTidyRunner.runParallel`
(ClangTidyRunner.ts lines 66-68): batch size `Math.ceil(N / maxJobs)`. -/
def runParallelBatches (files : List α) (maxJobs : Nat) : List (List α) :=
  splitArray files (ceilDiv files.length maxJobs)

/- ---------------------------------------------------------------
   Helper lemmas about splitArray. -/

theorem splitArray_eq_nil_iff {α : Type _} (l : List α) (b : Nat) (hb : 1 ≤ b) :
    splitArray l b = [] ↔ l = [] := by
  match l, b with
  | [], b => simp [splitArray]
  | x :: xs, b + 1 => simp [splitArray]

theorem splitArray_join {α : Type _} (l : List α) (b : Nat) (hb : 1 ≤ b) :
    (splitArray l b).flatten = l := by
  match l, b with
  | [], b => simp [splitArray]
  | x :: xs, b + 1 =>
    rw [splitArray, List.flatten_cons,
      splitArray_join ((x :: xs).drop (b + 1)) (b + 1) hb,
      List.take_append_drop]
termination_by l.length
decreasing_by simp [List.length_drop]; omega

theorem splitArray_full_batches {α : Type _} (l : List α) (b : Nat) (hb : 1 ≤ b) :
    ∀ i (h : i < (splitArray l b).length), i + 1 < (splitArray l b).length →
      ((splitArray l b).get ⟨i, h⟩).length = b := by
  match l, b with
  | [], b => intro i h; simp [splitArray] at h
  | x :: xs, b + 1 =>
    intro i h hlast
    match i with
    | 0 =>
      have hne : splitArray (List.drop b xs) (b + 1) ≠ [] := by
        intro hnil
        rw [splitArray] at hlast
        simp [List.drop_succ_cons, hnil] at hlast
      have hdrop : List.drop b xs ≠ [] :=
        fun hd => hne ((splitArray_eq_nil_iff _ _ hb).mpr hd)
      have hlen : b + 1 ≤ (x :: xs).length := by
        simp only [List.length_cons]
        by_contra hc
        exact hdrop (List.drop_eq_nil_of_le (by omega))
      simp only [List.length_cons] at hlen
      simp [splitArray, List.length_take]
      omega
    | j + 1 =>
      have h' : j < (splitArray ((x :: xs).drop (b + 1)) (b + 1)).length := by
        rw [splitArray] at h; simpa using h
      have h'' : j + 1 < (splitArray ((x :: xs).drop (b + 1)) (b + 1)).length := by
        rw [splitArray] at hlast; simpa using hlast
      have := splitArray_full_batches ((x :: xs).drop (b + 1)) (b + 1) hb j h' h''
      simpa [splitArray] using this
termination_by l.length
decreasing_by all_goals simp [List.length_drop]; omega

/-- C2: the batches built by `ClangTidyRunner.runParallel` are an exact
partition of the input file list — concatenating them in order yields the
input (nothing dropped or duplicated, order preserved) — and every batch
except possibly the last has exactly `ceil(N / J)` elements. -/
theorem runParallel_batches_partition {α : Type _} (files : List α) (J : Nat)
    (hJ : 1 ≤ J) :
    (runParallelBatches files J).flatten = files ∧
    (∀ i (h : i < (runParallelBatches files J).length),
      i + 1 < (runParallelBatches files J).length →
      ((runParallelBatches files J).get ⟨i, h⟩).length =
        ceilDiv files.length J) := by
  match files with
  | [] => simp [runParallelBatches, splitArray]
  | x :: xs =>
    have hb : 1 ≤ ceilDiv (x :: xs).length J := by
      unfold ceilDiv
      rw [Nat.one_le_div_iff (by omega)]
      simp only [List.length_cons]
      omega
    exact ⟨splitArray_join _ _ hb, splitArray_full_batches _ _ hb⟩

/-- Witness for C2 at a concrete input: three files, two jobs. -/
theorem runParallel_batches_partition_witness :
    (runParallelBatches [0, 1, 2] 2).flatten = [0, 1, 2] :=
  (runParallel_batches_partition [0, 1, 2] 2 (by decide)).1

/- ---------------------------------------------------------------
   Worker-pool invariant: whatever the completion schedule, the pool
   records exactly one result per task. -/

theorem poolGo_multiset {R : Type _} (f : Nat → R) (n : Nat) :
    ∀ (sched inflight : List Nat) (next : Nat) (acc : List R),
      next ≤ n →
      (inflight = [] → n ≤ next) →
      sched.length = inflight.length + (n - next) →
      (poolGo f n sched inflight next acc : Multiset R) =
        ↑acc + ↑(inflight.map f) + ↑((List.range' next (n - next)).map f) := by
  intro sched
  induction sched with
  | nil =>
    intro inflight next acc h1 h2 h3
    simp only [List.length_nil] at h3
    have hi : inflight = [] := by
      have : inflight.length = 0 := by omega
      exact List.length_eq_zero.mp this
    have hn : n - next = 0 := by omega
    subst hi
    simp [poolGo, hn]
  | cons c sched ih =>
    intro inflight next acc h1 h2 h3
    match inflight with
    | [] =>
      exfalso
      have hnn := h2 rfl
      simp only [List.length_cons, List.length_nil] at h3
      omega
    | i0 :: irest =>
      have hrotlen : ((i0 :: irest).rotate c).length = (i0 :: irest).length :=
        List.length_rotate _ _
      match hr : (i0 :: irest).rotate c with
      | [] => rw [hr] at hrotlen; simp at hrotlen
      | t :: rest =>
        have hperm : (t :: rest).Perm (i0 :: irest) := hr ▸ List.rotate_perm (i0 :: irest) c
        have hpermmap : ((t :: rest).map f).Perm ((i0 :: irest).map f) := hperm.map f
        have hcoe : ((i0 :: irest).map f : Multiset R) = ↑((t :: rest).map f) :=
          (Multiset.coe_eq_coe.mpr hpermmap).symm
        rw [hr] at hrotlen
        simp only [List.length_cons] at hrotlen
        simp only [poolGo, hr]
        by_cases hn : next < n
        · simp only [if_pos hn]
          rw [ih (rest ++ [next]) (next + 1) (acc ++ [f t]) (by omega)
            (by intro hc; simp at hc) (by simp at h3 ⊢; omega)]
          rw [hcoe]
          have hrange : List.range' next (n - next) =
              next :: List.range' (next + 1) (n - (next + 1)) := by
            have : n - next = (n - (next + 1)) + 1 := by omega
            rw [this]
            rfl
          rw [hrange]
          simp only [List.map_cons, List.map_append, List.map_cons, List.map_nil]
          simp only [← Multiset.coe_add, ← Multiset.cons_coe, Multiset.coe_nil,
            ← Multiset.singleton_add]
          abel
        · simp only [if_neg hn, List.append_nil]
          rw [ih rest next (acc ++ [f t]) h1
            (by intro hc; omega) (by simp at h3 ⊢; omega)]
          rw [hcoe]
          simp only [List.map_cons]
          simp only [← Multiset.coe_add, ← Multiset.cons_coe, Multiset.coe_nil,
            ← Multiset.singleton_add]
          abel

/-- Whatever the completion schedule, `executeParallel` returns exactly
the multiset of per-task results: one result per input task, none lost,
none duplicated. -/
theorem executeParallel_multiset {R : Type _} (f : Nat → R) (n W : Nat)
    (sched : List Nat) (hW : 1 ≤ W) (hs : sched.length = n) :
    (executeParallel f n W sched : Multiset R) = ↑((List.range n).map f) := by
  unfold executeParallel
  rw [poolGo_multiset f n sched (List.range (min W n)) (min W n) []
    (Nat.min_le_right _ _)
    (by intro hc
        have : min W n = 0 := by simpa using congrArg List.length hc
        omega)
    (by simp only [List.length_range]; omega)]
  have hsplit : List.range n = List.range' 0 (min W n) ++ List.range' (min W n) (n - min W n) := by
    rw [List.range_eq_range']
    have hr := List.range'_append 0 (min W n) (n - min W n) 1
    simp only [Nat.one_mul, Nat.zero_add] at hr
    have h5 : n - min W n + min W n = n := by omega
    rw [h5] at hr
    exact hr.symm
  rw [hsplit, List.map_append]
  simp only [← Multiset.coe_add, Multiset.coe_nil, List.range_eq_range']
  abel

/-- Two concrete tasks whose invocations both succeed, with
distinguishable stdout. -/
def twoTasks : Nat → Except Str ProcessResult := fun i =>
  .ok { stdout := if i = 0 then "out0".data else "out1".data,
        stderr := [], exitCode := 0, duration := 0 }

/-- C1: the result array of `executeParallel` is NOT positionally aligned
with the input task list.  With two tasks, two workers and a completion
schedule in which task 1 finishes before task 0, the source pushes
results in completion order (part_000 line 398), so the element at index
0 is task 1's result, not task 0's. -/
theorem executeParallel_completion_order :
    executeParallel (runTask twoTasks) 2 2 [1, 0] =
      [runTask twoTasks 1, runTask twoTasks 0] ∧
    (executeParallel (runTask twoTasks) 2 2 [1, 0]).head? ≠
      some (runTask twoTasks 0) := by
  refine ⟨by decide, by decide⟩

/-- C3: a rejected invocation for one task is recorded as the synthetic
result `{stdout: '', stderr: errorMsg, exitCode: 1, duration: 0}`; every
other task still runs to completion and has its result recorded, and the
pool itself always resolves with one result per task. -/
theorem executeParallel_failure_isolation
    (r : Nat → Except Str ProcessResult) (n W : Nat) (sched : List Nat)
    (hW : 1 ≤ W) (hs : sched.length = n) :
    (executeParallel (runTask r) n W sched).length = n ∧
    (∀ i e, i < n → r i = .error e →
      ({ stdout := [], stderr := e, exitCode := 1, duration := 0 } : ProcessResult)
        ∈ executeParallel (runTask r) n W sched) ∧
    (∀ i p, i < n → r i = .ok p →
      p ∈ executeParallel (runTask r) n W sched) := by
  have hm := executeParallel_multiset (runTask r) n W sched hW hs
  refine ⟨?_, ?_, ?_⟩
  · have hcard := congrArg Multiset.card hm
    simpa [Multiset.coe_card] using hcard
  · intro i e hi he
    have hmem : runTask r i ∈ (List.range n).map (runTask r) :=
      List.mem_map_of_mem _ (List.mem_range.mpr hi)
    have hx : runTask r i ∈ (executeParallel (runTask r) n W sched : Multiset _) := by
      rw [hm]; exact Multiset.mem_coe.mpr hmem
    have hl := Multiset.mem_coe.mp hx
    simpa [runTask, he] using hl
  · intro i p hi hp
    have hmem : runTask r i ∈ (List.range n).map (runTask r) :=
      List.mem_map_of_mem _ (List.mem_range.mpr hi)
    have hx : runTask r i ∈ (executeParallel (runTask r) n W sched : Multiset _) := by
      rw [hm]; exact Multiset.mem_coe.mpr hmem
    have hl := Multiset.mem_coe.mp hx
    simpa [runTask, hp] using hl

/-- Witness for C3: two tasks, task 0's invocation rejects with "boom",
task 1 succeeds; both results are present and the pool resolves. -/
def failingTasks : Nat → Except Str ProcessResult := fun i =>
  if i = 0 then .error "boom".data
  else .ok { stdout := "fine".data, stderr := [], exitCode := 0, duration := 7 }

theorem executeParallel_failure_isolation_witness :
    (executeParallel (runTask failingTasks) 2 2 [0, 0]).length = 2 ∧
    ({ stdout := [], stderr := "boom".data, exitCode := 1, duration := 0 } : ProcessResult)
      ∈ executeParallel (runTask failingTasks) 2 2 [0, 0] ∧
    ({ stdout := "fine".data, stderr := [], exitCode := 0, duration := 7 } : ProcessResult)
      ∈ executeParallel (runTask failingTasks) 2 2 [0, 0] := by
  have h := executeParallel_failure_isolation failingTasks 2 2 [0, 0]
    (by decide) (by decide)
  exact ⟨h.1, h.2.1 0 "boom".data (by decide) rfl,
    h.2.2 1 _ (by decide) rfl⟩

/- ---------------------------------------------------------------
   TextParser (src/unnamed/part_003).

   The warning-line regular expression (lines 35-36):

     ^((?:[a-zA-Z]:)?[\/\\][^:\n]+):(\d+):(\d+):
       \s+([a-zA-Z]+):\s+([^\n]+?)(?:\s+\[([^\]]+)\])?$

   is modelled as a deterministic scanner.  Every sub-expression except
   the final `\s+` / lazy-message pair has unambiguous boundaries (each
   greedy class excludes the character that follows it), so no
   backtracking can change the result there; the final `\s+` is tried
   from its maximal width downwards and the lazy message from its
   shortest width upwards, with the optional rule group tried before the
   bare end-of-line, exactly as a backtracking engine does. -/

/-- JavaScript `\s` (whitespace class), by code point: space, tab,
LF, VT, FF, CR, NBSP, Ogham space, the U+2000 block, line/paragraph
separators, NNBSP, MMSP, ideographic space, BOM. -/
def isJsWs (c : Char) : Bool :=
  let n := c.toNat
  n = 0x20 || n = 0x9 || n = 0xa || n = 0xb || n = 0xc || n = 0xd ||
  n = 0xa0 || n = 0x1680 || (0x2000 ≤ n && n ≤ 0x200a) ||
  n = 0x2028 || n = 0x2029 || n = 0x202f || n = 0x205f ||
  n = 0x3000 || n = 0xfeff

/-- Regex class `[a-zA-Z]`, by code point. -/
def isAsciiAlpha (c : Char) : Bool :=
  let n := c.toNat
  (0x61 ≤ n && n ≤ 0x7a) || (0x41 ≤ n && n ≤ 0x5a)

/-- Regex class `\d`, by code point. -/
def isAsciiDigit (c : Char) : Bool :=
  let n := c.toNat
  0x30 ≤ n && n ≤ 0x39

/-- Greedy scan of a character class: the maximal prefix satisfying `p`,
and the remainder. -/
def spanP (p : Char → Bool) : Str → Str × Str
  | [] => ([], [])
  | c :: cs =>
      if p c then
        let r := spanP p cs
        (c :: r.1, r.2)
      else ([], c :: cs)

/-- JavaScript `String.prototype.trim`. -/
def jsTrim (l : Str) : Str :=
  ((l.dropWhile isJsWs).reverse.dropWhile isJsWs).reverse

/-- `parseInt(s, 10)` on an all-digit string. -/
def digitsToNat (ds : Str) : Nat :=
  ds.foldl (fun acc c => 10 * acc + (c.toNat - '0'.toNat)) 0

/-- Model of the `ClangTidyDiagnostic` record; the three context fields
are optional in the TypeScript interface (`undefined` = `none`). -/
structure ClangTidyDiagnostic where
  filePath : Str
  line : Nat
  column : Nat
  severity : Str
  message : Str
  checkName : Str
  codeLineFull : Option Str := none
  caretLine : Option Str := none
  fixSuggestion : Option Str := none
deriving Repr, DecidableEq

/-- The capture groups of a successful warning-regex match. -/
structure WarningMatch where
  filePath : Str
  lineStr : Str
  columnStr : Str
  severityStr : Str
  rawMessage : Str
  checkName : Option Str
deriving Repr, DecidableEq

/-- `[\/\\][^:\n]+` — a path separator followed by a non-empty maximal
run of characters that are neither `:` nor a newline. -/
def parseSepRun (l : Str) : Option (Str × Str) :=
  match l with
  | c :: rest =>
      if c == '/' || c == '\\' then
        let s := spanP (fun ch => ch != ':' && ch != '\n') rest
        if s.1.isEmpty then none else some (c :: s.1, s.2)
      else none
  | [] => none

/-- Group 1, `(?:[a-zA-Z]:)?[\/\\][^:\n]+`: an optional drive prefix then
a separator-led run.  When the drive prefix is present but no separator
follows, the engine backtracks to the drive-less alternative, which then
fails on the leading letter — both failures collapse to `none`. -/
def parsePathStart (l : Str) : Option (Str × Str) :=
  match l with
  | d :: c1 :: rest =>
      if c1 == ':' && isAsciiAlpha d then
        match parseSepRun rest with
        | some (run, rest2) => some (d :: c1 :: run, rest2)
        | none => none
      else parseSepRun l
  | _ => parseSepRun l

/-- Consume one expected literal character. -/
def expectChar (c : Char) (l : Str) : Option Str :=
  match l with
  | x :: rest => if x == c then some rest else none
  | [] => none

/-- `\s+\[([^\]]+)\]$` matched against the whole remainder: whitespace,
an opening bracket, a non-empty run without `]`, a closing bracket, end
of line.  Returns the captured rule name. -/
def bracketEnd (l : Str) : Option Str :=
  let s := spanP isJsWs l
  if s.1.isEmpty then none
  else
    match s.2 with
    | c :: rest2 =>
        if c == '[' then
          let t := spanP (fun ch => ch != ']') rest2
          if t.1.isEmpty then none
          else
            match t.2 with
            | c2 :: rest3 => if c2 == ']' && rest3.isEmpty then some t.1 else none
            | [] => none
        else none
    | [] => none

/-- The lazy message `([^\n]+?)` followed by the greedy-optional rule
group and the `$` anchor: the message grows one character at a time and
at each length the engine first tries the bracketed rule suffix, then
the bare end of input. -/
def msgScan (acc : Str) : Str → Option (Str × Option Str)
  | [] => none
  | c :: rest =>
      if c == '\n' then none
      else
        match bracketEnd rest with
        | some rule => some (acc ++ [c], some rule)
        | none =>
            if rest.isEmpty then some (acc ++ [c], none)
            else msgScan (acc ++ [c]) rest

/-- Backtracking of the `\s+` before the message: widths are tried from
maximal (`k = ws.length`) down to 1. -/
def tailFrom : Nat → Str → Str → Option (Str × Option Str)
  | 0, _, _ => none
  | k + 1, ws, rest =>
      match msgScan [] (ws.drop (k + 1) ++ rest) with
      | some r => some r
      | none => tailFrom k ws rest

/-- `\s+([^\n]+?)(?:\s+\[([^\]]+)\])?$`. -/
def parseTail (l : Str) : Option (Str × Option Str) :=
  let s := spanP isJsWs l
  if s.1.isEmpty then none else tailFrom s.1.length s.1 s.2

/-- The whole warning regex (part_003 lines 35-36) applied to one
line. -/
def matchWarningLine (l : Str) : Option WarningMatch :=
  match parsePathStart l with
  | none => none
  | some (fp, r1) =>
    match expectChar ':' r1 with
    | none => none
    | some r2 =>
      let d1 := spanP isAsciiDigit r2
      if d1.1.isEmpty then none else
      match expectChar ':' d1.2 with
      | none => none
      | some r4 =>
        let d2 := spanP isAsciiDigit r4
        if d2.1.isEmpty then none else
        match expectChar ':' d2.2 with
        | none => none
        | some r6 =>
          let w1 := spanP isJsWs r6
          if w1.1.isEmpty then none else
          let sv := spanP isAsciiAlpha w1.2
          if sv.1.isEmpty then none else
          match expectChar ':' sv.2 with
          | none => none
          | some r9 =>
            match parseTail r9 with
            | none => none
            | some (msg, rule) => some ⟨fp, d1.1, d2.1, sv.1, msg, rule⟩

/-- `TextParser.validateSeverity` (part_003 lines 193-196). -/
def validateSeverity (severity : Str) : Option Str :=
  if severity = "error".data ∨ severity = "warning".data ∨
     severity = "note".data ∨ severity = "fatal".data
  then some severity else none

/-- `/^\s{3}\d+\s+\|/.test(line)` (part_003 line 94): exactly three
whitespace characters, digits, whitespace, then a pipe. -/
def isCodeLine (l : Str) : Bool :=
  match l with
  | c0 :: c1 :: c2 :: rest =>
      isJsWs c0 && isJsWs c1 && isJsWs c2 &&
      (let d := spanP isAsciiDigit rest
       !d.1.isEmpty &&
       (let w := spanP isJsWs d.2
        !w.1.isEmpty && w.2.head? == some '|'))
  | _ => false

/-- `/^\s+\|/.test(line)` (part_003 line 97). -/
def isDetailLine (l : Str) : Bool :=
  let w := spanP isJsWs l
  !w.1.isEmpty && w.2.head? == some '|'

/-- `line.split('|').pop()`: the segment after the last pipe (the whole
line when there is no pipe). -/
def afterLastBar (l : Str) : Str :=
  (l.reverse.takeWhile (fun c => c != '|')).reverse

/-- The `codePart` local of the code-line branch (part_003 line 104):
`line.split('|').pop()?.trim() || line`. -/
def codePart (l : Str) : Str :=
  let t := jsTrim (afterLastBar l)
  if t.isEmpty then l else t

/-- The loop state of `transformTextToDiagnostics`: the emitted
diagnostics (most recent first — the source array is this list
reversed), whether `currentDiagnostic` is non-null (it is then the most
recent diagnostic), and the two counters. -/
structure ParseState where
  revDiags : List ClangTidyDiagnostic
  cur : Bool
  matchedWarnings : Nat
  invalidSeverities : Nat
deriving Repr, DecidableEq

/-- The diagnostic object built at part_003 lines 74-81. -/
def mkDiagnostic (m : WarningMatch) (sev : Str) : ClangTidyDiagnostic :=
  { filePath := m.filePath, line := digitsToNat m.lineStr,
    column := digitsToNat m.columnStr, severity := sev,
    message := jsTrim m.rawMessage, checkName := m.checkName.getD [] }

/-- One iteration of the `for (const line of lines)` loop
(part_003 lines 44-125). -/
def stepLine (st : ParseState) (l : Str) : ParseState :=
  if (jsTrim l).isEmpty then { st with cur := false }
  else
    match matchWarningLine l with
    | some m =>
        let st1 := { st with matchedWarnings := st.matchedWarnings + 1 }
        match validateSeverity (m.severityStr.map Char.toLower) with
        | none =>
            { st1 with invalidSeverities := st1.invalidSeverities + 1,
                       cur := false }
        | some sev =>
            { st1 with revDiags := mkDiagnostic m sev :: st1.revDiags,
                       cur := true }
    | none =>
        if st.cur then
          match st.revDiags with
          | [] => st
          | d :: rest =>
              if isCodeLine l then
                { st with revDiags :=
                    { d with codeLineFull := some (codePart l) } :: rest }
              else if isDetailLine l then
                if (jsTrim l).contains '^' then
                  { st with revDiags :=
                      { d with caretLine := some l } :: rest }
                else
                  match d.fixSuggestion with
                  | some prev =>
                      let d2 := { d with fixSuggestion := some (prev ++ '\n' :: l) }
                      { st with revDiags := d2 :: rest }
                  | none =>
                      let d2 := { d with fixSuggestion := some l }
                      { st with revDiags := d2 :: rest }
              else { st with cur := false }
        else st

/-- The file system seen by `enrichDiagnosticsWithSourceCode`: maps a
path to the file's lines (`content.split('\n')`), or to the thrown read
error. -/
abbrev FileSystem := Str → Except Str (List Str)

/-- JavaScript truthiness of an optional string field: `undefined` and
the empty string are falsy. -/
def truthy (o : Option Str) : Bool :=
  match o with
  | none => false
  | some s => !s.isEmpty

/-- The per-diagnostic effect of `enrichDiagnosticsWithSourceCode`
(part_003 lines 140-188).  The source groups diagnostics by file and
reads each file once inside a try/catch; with a pure file system this is
the same as updating each diagnostic independently, a read failure
(`.error`) leaving the diagnostics of that file untouched. -/
def enrichOne (fsys : FileSystem) (d : ClangTidyDiagnostic) :
    ClangTidyDiagnostic :=
  match fsys d.filePath with
  | .error _ => d
  | .ok fileLines =>
      let lineIndex : Int := (d.line : Int) - 1
      if 0 ≤ lineIndex ∧ lineIndex < fileLines.length then
        let codeLine := fileLines.getD lineIndex.toNat []
        let d1 :=
          if truthy d.codeLineFull then d
          else { d with codeLineFull := some codeLine }
        if truthy d1.caretLine then d1
        else
          let caret := List.replicate (d.column - 1) ' ' ++ ['^']
          { d1 with caretLine := some caret }
      else d

/-- `TextParser.enrichDiagnosticsWithSourceCode`. -/
def enrichDiagnosticsWithSourceCode (fsys : FileSystem)
    (diagnostics : List ClangTidyDiagnostic) : List ClangTidyDiagnostic :=
  diagnostics.map (enrichOne fsys)

/-- `TextParser.transformTextToDiagnostics` (part_003 lines 25-135),
additionally exposing the `matchedWarnings` and `invalidSeverities`
counters (locals of the source, reported via its log line). -/
def transformTextToDiagnostics (fsys : FileSystem) (text : Str) :
    List ClangTidyDiagnostic × Nat × Nat :=
  let lines := text.splitOn '\n'
  let st := lines.foldl stepLine ⟨[], false, 0, 0⟩
  let diagnostics := st.revDiags.reverse
  (enrichDiagnosticsWithSourceCode fsys diagnostics,
   st.matchedWarnings, st.invalidSeverities)

/-- `transformTextToDiagnostics` as the possibly-throwing computation the
caller's try/catch guards against: every fallible step (the file reads)
is already handled inside `enrichOne`, so the computation is total and
always returns `.ok`. -/
def transformTextToDiagnosticsE (fsys : FileSystem) (text : Str) :
    Except Str (List ClangTidyDiagnostic × Nat × Nat) :=
  .ok (transformTextToDiagnostics fsys text)

/-- `TextParser.parseClangTidyText` (part_003 lines 11-20): the try/catch
returns `[]` when the transformation throws. -/
def parseClangTidyText (fsys : FileSystem) (text : Str) :
    List ClangTidyDiagnostic :=
  match transformTextToDiagnosticsE fsys text with
  | .ok r => r.1
  | .error _ => []

/- ---------------------------------------------------------------
   runClangTidyAnalysis result handling (src/src/extension.ts). -/

/-- The merged exit code of a parallel run (extension.ts line 184):
`parallelResults.some(r => r.exitCode !== 0) ? 1 : 0`. -/
def mergedExitCode (codes : List Int) : Int :=
  if codes.any (fun c => !(c == 0)) then 1 else 0

/-- How `runClangTidyAnalysis` disposes of a merged run result. -/
inductive RunOutcome where
  | aborted (errorOutput : Str)
  | noIssues
  | report (diagnostics : List ClangTidyDiagnostic)
deriving Repr, DecidableEq

/-- The decision chain of `runClangTidyAnalysis` (extension.ts lines
196-209): `if (result.exitCode !== 0 && !result.rawOutput)` show the
failure message and abort; otherwise parse the raw output and, when no
diagnostics were produced, report "no issues found"; otherwise proceed
to the report. -/
def runClangTidyOutcome (fsys : FileSystem) (exitCode : Int)
    (rawOutput errorOutput : Str) : RunOutcome :=
  if exitCode ≠ 0 ∧ rawOutput.isEmpty then .aborted errorOutput
  else
    let diagnostics := parseClangTidyText fsys rawOutput
    if diagnostics.isEmpty then .noIssues else .report diagnostics

/-- A file system on which every read fails. -/
def failFs : FileSystem := fun _ => .error "ENOENT".data

/-- C8 counterexample: a merged run with exit code 0 (all batch exit
codes zero) and empty raw stdout is dispatched to the "no issues found"
path, not treated as a run-level failure. -/
theorem zero_exit_empty_output_not_failure :
    mergedExitCode [0, 0] = 0 ∧
    runClangTidyOutcome failFs 0 [] "stderr text".data = .noIssues := by
  constructor
  · rfl
  · rfl

/-- C8 amended: the pipeline surfaces a run-level failure exactly for a
non-zero merged exit code combined with empty raw stdout; exit code 0
with empty stdout is treated as a successful run with no findings. -/
theorem run_failure_needs_nonzero_exit (fsys : FileSystem) (c : Int)
    (out err : Str) :
    (c ≠ 0 → out = [] → runClangTidyOutcome fsys c out err = .aborted err) ∧
    (c = 0 → runClangTidyOutcome fsys c [] err = .noIssues) := by
  constructor
  · intro hc hout
    subst hout
    simp [runClangTidyOutcome, hc]
  · intro hc
    subst hc
    have hparse : parseClangTidyText fsys [] = [] := rfl
    simp [runClangTidyOutcome, hparse]

/-- Witness for C8 (amended): exit code 2 with empty output aborts; exit
code 0 with empty output reports no issues. -/
theorem run_failure_needs_nonzero_exit_witness :
    runClangTidyOutcome failFs 2 [] "oops".data = .aborted "oops".data ∧
    runClangTidyOutcome failFs 0 [] "oops".data = .noIssues :=
  ⟨(run_failure_needs_nonzero_exit failFs 2 [] "oops".data).1 (by decide) rfl,
   (run_failure_needs_nonzero_exit failFs 0 [] "oops".data).2 rfl⟩

/-- C9: a `close` event with a `null` exit code resolves to exit code 0,
indistinguishable from success; a resolved result has a non-zero exit
code only when the child reported that same non-zero numeric code. -/
theorem executeCommand_null_close_is_zero :
    (∀ out err dur, executeCommand (.closed none out err dur) =
      .ok { stdout := out, stderr := err, exitCode := 0, duration := dur }) ∧
    (∀ b p, executeCommand b = .ok p → p.exitCode ≠ 0 →
      ∃ k out err dur, b = .closed (some k) out err dur ∧ k ≠ 0 ∧
        p.exitCode = k) := by
  constructor
  · intro out err dur; rfl
  · intro b p hb hne
    match b with
    | .errored m => simp [executeCommand] at hb
    | .closed code out err dur =>
      simp only [executeCommand, Except.ok.injEq] at hb
      match code with
      | none =>
        exfalso
        rw [← hb] at hne
        simp [jsOrZero] at hne
      | some k =>
        refine ⟨k, out, err, dur, rfl, ?_, ?_⟩
        · intro hk
          rw [← hb] at hne
          simp [jsOrZero, hk] at hne
        · rw [← hb]
          simp only [jsOrZero]
          split
          · rename_i hk
            rw [← hb] at hne
            simp [jsOrZero, hk] at hne
          · rfl

/-- Witness for C9: a signal-terminated child (`close(null)`) resolves
with exit code 0; a child closing with code 2 yields exit code 2. -/
theorem executeCommand_null_close_is_zero_witness :
    executeCommand (.closed none "o".data "e".data 3) =
      .ok { stdout := "o".data, stderr := "e".data, exitCode := 0, duration := 3 } ∧
    ∃ k out err dur,
      (SpawnBehavior.closed (some 2) "o".data "e".data 3) =
        .closed (some k) out err dur ∧ k ≠ 0 ∧
      ({ stdout := "o".data, stderr := "e".data, exitCode := 2, duration := 3 } : ProcessResult).exitCode = k :=
  ⟨executeCommand_null_close_is_zero.1 "o".data "e".data 3,
   executeCommand_null_close_is_zero.2 (.closed (some 2) "o".data "e".data 3)
     { stdout := "o".data, stderr := "e".data, exitCode := 2, duration := 3 }
     rfl (by decide)⟩

/- ---------------------------------------------------------------
   Character-class and scanning lemmas. -/

theorem not_ws_of_alpha (c : Char) (h : isAsciiAlpha c = true) :
    isJsWs c = false := by
  simp only [isAsciiAlpha, Bool.or_eq_true, Bool.and_eq_true,
    decide_eq_true_eq] at h
  simp only [isJsWs, Bool.or_eq_false_iff, Bool.and_eq_false_iff,
    decide_eq_false_iff_not]
  omega

theorem not_ws_of_digit (c : Char) (h : isAsciiDigit c = true) :
    isJsWs c = false := by
  simp only [isAsciiDigit, Bool.and_eq_true, decide_eq_true_eq] at h
  simp only [isJsWs, Bool.or_eq_false_iff, Bool.and_eq_false_iff,
    decide_eq_false_iff_not]
  omega

theorem ws_not_alpha (c : Char) (h : isJsWs c = true) :
    isAsciiAlpha c = false := by
  cases halpha : isAsciiAlpha c with
  | false => rfl
  | true => rw [not_ws_of_alpha c halpha] at h; cases h

theorem ws_beq_eq_false (c d : Char) (h : isJsWs c = true)
    (hd : isJsWs d = false) : (c == d) = false := by
  rw [beq_eq_false_iff_ne]
  intro he
  subst he
  rw [h] at hd
  cases hd

theorem spanP_append (p : Char → Bool) (l : Str) :
    (spanP p l).1 ++ (spanP p l).2 = l := by
  induction l with
  | nil => rfl
  | cons c cs ih =>
    by_cases hpc : p c
    · simp [spanP, hpc, ih]
    · simp [spanP, hpc]

theorem spanP_eq_of (p : Char → Bool) (xs ys : Str)
    (hx : ∀ c ∈ xs, p c = true)
    (hy : ∀ c, ys.head? = some c → p c = false) :
    spanP p (xs ++ ys) = (xs, ys) := by
  induction xs with
  | nil =>
    cases ys with
    | nil => rfl
    | cons y ys' => simp [spanP, hy y rfl]
  | cons c cs ih =>
    have hpc := hx c (by simp)
    have := ih (fun d hd => hx d (by simp [hd]))
    simp [spanP, hpc, this]

theorem takeWhile_append_stop (p : Char → Bool) (xs : Str) (b : Char)
    (bs : Str) (hx : ∀ c ∈ xs, p c = true) (hb : p b = false) :
    (xs ++ b :: bs).takeWhile p = xs := by
  induction xs with
  | nil => simp [List.takeWhile_cons, hb]
  | cons c cs ih =>
    have hpc := hx c (by simp)
    have := ih (fun d hd => hx d (by simp [hd]))
    simp [List.takeWhile_cons, hpc, this]

theorem dropWhile_eq_self_of_head (p : Char → Bool) (l : Str)
    (h : ∀ c, l.head? = some c → p c = false) : l.dropWhile p = l := by
  cases l with
  | nil => rfl
  | cons c cs => simp [List.dropWhile_cons, h c rfl]

theorem mem_dropWhile (p : Char → Bool) (l : Str) (x : Char)
    (hx : x ∈ l) (hpx : p x = false) : x ∈ l.dropWhile p := by
  induction l with
  | nil => cases hx
  | cons c cs ih =>
    by_cases hpc : p c
    · have hxc : x ∈ cs := by
        rcases List.mem_cons.mp hx with h | h
        · subst h; rw [hpc] at hpx; cases hpx
        · exact h
      simp [List.dropWhile_cons, hpc]
      exact ih hxc
    · simpa [List.dropWhile_cons, hpc] using hx

theorem dropWhile_ne_nil_of_mem (p : Char → Bool) (l : Str) (x : Char)
    (hx : x ∈ l) (hpx : p x = false) : l.dropWhile p ≠ [] := by
  intro hnil
  have := mem_dropWhile p l x hx hpx
  rw [hnil] at this
  cases this

theorem jsTrim_eq_self (l : Str)
    (hh : ∀ c, l.head? = some c → isJsWs c = false)
    (hl : ∀ c, l.getLast? = some c → isJsWs c = false) :
    jsTrim l = l := by
  unfold jsTrim
  rw [dropWhile_eq_self_of_head _ _ hh]
  rw [dropWhile_eq_self_of_head _ _ (by simpa [List.head?_reverse] using hl)]
  exact List.reverse_reverse l

theorem jsTrim_ne_nil (l : Str) (x : Char) (hx : x ∈ l)
    (hpx : isJsWs x = false) : jsTrim l ≠ [] := by
  unfold jsTrim
  intro h
  have h1 : (l.dropWhile isJsWs).reverse.dropWhile isJsWs = [] := by
    rw [← List.reverse_eq_nil_iff] at h
    simpa using h
  have hmem : x ∈ (l.dropWhile isJsWs).reverse :=
    List.mem_reverse.mpr (mem_dropWhile _ _ _ hx hpx)
  exact dropWhile_ne_nil_of_mem isJsWs _ x hmem hpx h1

/- ---------------------------------------------------------------
   Well-formedness of the components of a header line, mirroring the
   character classes of the warning regex. -/

/-- A separator-led path without drive: `[\/\\][^:\n]+`. -/
def sepRunOk (q : Str) : Bool :=
  match q with
  | c :: rest =>
      (c == '/' || c == '\\') && !rest.isEmpty &&
      rest.all (fun ch => ch != ':' && ch != '\n')
  | [] => false

/-- A string matching the path group `(?:[a-zA-Z]:)?[\/\\][^:\n]+` in
full. -/
def pathOk (p : Str) : Bool :=
  match p with
  | d :: c1 :: c2 :: rest =>
      if c1 == ':' then
        isAsciiAlpha d && (c2 == '/' || c2 == '\\') && !rest.isEmpty &&
        rest.all (fun ch => ch != ':' && ch != '\n')
      else sepRunOk (d :: c1 :: c2 :: rest)
  | p => sepRunOk p

theorem parseSepRun_eq (c : Char) (run tail : Str)
    (hc : (c == '/' || c == '\\') = true) (hrun : run ≠ [])
    (hall : ∀ ch ∈ run, (ch != ':' && ch != '\n') = true) :
    parseSepRun (c :: (run ++ ':' :: tail)) = some (c :: run, ':' :: tail) := by
  simp only [parseSepRun, hc, if_true]
  rw [spanP_eq_of _ run (':' :: tail) hall
    (by intro d hd; simp only [List.head?_cons, Option.some.injEq] at hd
        subst hd; decide)]
  have : run.isEmpty = false := by
    cases run with
    | nil => exact absurd rfl hrun
    | cons a b => rfl
  simp [this]

theorem parsePathStart_of_pathOk (p tail : Str) (hp : pathOk p = true) :
    parsePathStart (p ++ ':' :: tail) = some (p, ':' :: tail) := by
  match p with
  | [] => simp [pathOk, sepRunOk] at hp
  | [c] => simp [pathOk, sepRunOk] at hp
  | [c, c1] =>
    simp only [pathOk, sepRunOk, Bool.and_eq_true,
      List.all_cons, List.all_nil, Bool.and_true, List.isEmpty_cons,
      Bool.not_false, and_true] at hp
    obtain ⟨hc, hcol, hnl⟩ := hp
    simp only [List.cons_append, List.nil_append, parsePathStart]
    rw [if_neg (by simp [bne_iff_ne] at hcol; simp [hcol])]
    have := parseSepRun_eq c [c1] tail hc (by simp)
      (by intro d hd
          simp only [List.mem_singleton] at hd
          subst hd
          simp [hcol, hnl])
    simpa using this
  | d :: c1 :: c2 :: rest =>
    by_cases hc1 : c1 == ':'
    · have hc1' : c1 = ':' := beq_iff_eq.mp hc1
      subst hc1'
      simp only [pathOk] at hp
      rw [if_pos (by exact rfl)] at hp
      simp only [Bool.and_eq_true] at hp
      obtain ⟨⟨⟨hd, hsep⟩, hne⟩, hall⟩ := hp
      have hrest : rest ≠ [] := by
        intro h; subst h; simp at hne
      simp only [List.cons_append, parsePathStart]
      rw [if_pos (by simp [hd])]
      have := parseSepRun_eq c2 rest tail hsep hrest
        (by intro ch hch; exact List.all_eq_true.mp hall ch hch)
      rw [this]
    · simp only [pathOk] at hp
      rw [if_neg (by simpa using hc1)] at hp
      simp only [sepRunOk, Bool.and_eq_true] at hp
      obtain ⟨⟨hd, hne⟩, hall⟩ := hp
      simp only [List.cons_append, parsePathStart]
      rw [if_neg (by simp [hc1])]
      have := parseSepRun_eq d (c1 :: c2 :: rest) tail hd (by simp)
        (by intro ch hch; exact List.all_eq_true.mp hall ch hch)
      simpa using this

theorem exists_first_fail (p : Char → Bool) (l : Str)
    (h : ∃ x ∈ l, p x = false) :
    ∃ w x r, l = w ++ x :: r ∧ (∀ c ∈ w, p c = true) ∧ p x = false := by
  induction l with
  | nil => obtain ⟨x, hx, -⟩ := h; cases hx
  | cons c cs ih =>
    by_cases hpc : p c = true
    · obtain ⟨x, hx, hpx⟩ := h
      have hxcs : x ∈ cs := by
        rcases List.mem_cons.mp hx with h1 | h1
        · subst h1; rw [hpc] at hpx; cases hpx
        · exact h1
      obtain ⟨w, x', r, heq, hw, hx'⟩ := ih ⟨x, hxcs, hpx⟩
      refine ⟨c :: w, x', r, by rw [heq]; rfl, ?_, hx'⟩
      intro d hd
      rcases List.mem_cons.mp hd with h1 | h1
      · subst h1; exact hpc
      · exact hw d h1
    · exact ⟨[], c, cs, rfl, by simp, by simpa using hpc⟩

theorem bracketEnd_none (l : Str) (h : ∀ c ∈ l, (c == '[') = false) :
    bracketEnd l = none := by
  simp only [bracketEnd]
  cases hs : spanP isJsWs l with
  | mk a b =>
    by_cases ha : a.isEmpty
    · simp [ha]
    · cases b with
      | nil => simp [ha]
      | cons c rest2 =>
        have hc : c ∈ l := by
          rw [← spanP_append isJsWs l, hs]
          simp
        simp [ha, h c hc]

theorem bracketEnd_with_prefix_none (m s : Str)
    (hx : ∃ x ∈ m, isJsWs x = false)
    (hnb : ∀ c ∈ m, (c == '[') = false) : bracketEnd (m ++ s) = none := by
  obtain ⟨w, x, r, heq, hw, hxws⟩ := exists_first_fail _ _ hx
  subst heq
  have hspan : spanP isJsWs (w ++ x :: r ++ s) = (w, x :: (r ++ s)) := by
    rw [List.append_assoc]
    exact spanP_eq_of _ w (x :: r ++ s) hw
      (by intro d hd
          simp only [List.cons_append, List.head?_cons, Option.some.injEq] at hd
          subst hd; exact hxws)
  simp only [bracketEnd]
  rw [hspan]
  by_cases hw0 : w.isEmpty
  · simp [hw0]
  · have hxb : (x == '[') = false := hnb x (by simp)
    simp [hw0, hxb]

theorem bracketEnd_rule (rule : Str) (hne : rule ≠ [])
    (hall : ∀ c ∈ rule, (c != ']') = true) :
    bracketEnd (' ' :: '[' :: (rule ++ [']'])) = some rule := by
  simp only [bracketEnd]
  have h1 : spanP isJsWs (' ' :: '[' :: (rule ++ [']'])) =
      ([' '], '[' :: (rule ++ [']'])) := by
    have := spanP_eq_of isJsWs [' '] ('[' :: (rule ++ [']']))
      (by intro c hc; simp only [List.mem_singleton] at hc; subst hc; decide)
      (by intro c hc; simp only [List.head?_cons, Option.some.injEq] at hc
          subst hc; decide)
    simpa using this
  rw [h1]
  have h2 : spanP (fun ch => ch != ']') (rule ++ [']']) = (rule, [']']) :=
    spanP_eq_of _ rule [']'] hall
      (by intro c hc; simp only [List.head?_cons, Option.some.injEq] at hc
          subst hc; decide)
  have hruleE : rule.isEmpty = false := by
    cases rule with
    | nil => exact absurd rfl hne
    | cons a b => rfl
  simp [h2, hruleE]

/-- A message for which the header line is unambiguous: non-empty, not
starting or ending in whitespace (`trim`-invariant), containing neither
a newline nor an opening bracket. -/
def msgOk (m : Str) : Bool :=
  !m.isEmpty &&
  m.head?.all (fun c => !isJsWs c) &&
  m.getLast?.all (fun c => !isJsWs c) &&
  m.all (fun c => c != '\n' && c != '[')

/-- A rule identifier matching `[^\]]+` with no newline. -/
def ruleOk (r : Str) : Bool :=
  !r.isEmpty && r.all (fun c => c != ']' && c != '\n')

theorem msgOk_spec (m : Str) (h : msgOk m = true) :
    m ≠ [] ∧ (∀ c, m.head? = some c → isJsWs c = false) ∧
    (∀ c, m.getLast? = some c → isJsWs c = false) ∧
    (∀ c ∈ m, (c == '\n') = false) ∧ (∀ c ∈ m, (c == '[') = false) := by
  simp only [msgOk, Bool.and_eq_true] at h
  obtain ⟨⟨⟨hne, hhd⟩, hlast⟩, hall⟩ := h
  refine ⟨?_, ?_, ?_, ?_, ?_⟩
  · intro he; subst he; simp at hne
  · intro c hc
    rw [hc] at hhd
    simpa using hhd
  · intro c hc
    rw [hc] at hlast
    simpa using hlast
  · intro c hc
    have := List.all_eq_true.mp hall c hc
    simp only [Bool.and_eq_true] at this
    simpa [bne] using this.1
  · intro c hc
    have := List.all_eq_true.mp hall c hc
    simp only [Bool.and_eq_true] at this
    simpa [bne] using this.2

theorem ruleOk_spec (r : Str) (h : ruleOk r = true) :
    r ≠ [] ∧ (∀ c ∈ r, (c != ']') = true) ∧ (∀ c ∈ r, (c == '\n') = false) := by
  simp only [ruleOk, Bool.and_eq_true] at h
  obtain ⟨hne, hall⟩ := h
  refine ⟨?_, ?_, ?_⟩
  · intro he; subst he; simp at hne
  · intro c hc
    have := List.all_eq_true.mp hall c hc
    simp only [Bool.and_eq_true] at this
    exact this.1
  · intro c hc
    have := List.all_eq_true.mp hall c hc
    simp only [Bool.and_eq_true] at this
    simpa [bne] using this.2

theorem msgScan_no_rule (m : Str) (hne : m ≠ [])
    (hnl : ∀ c ∈ m, (c == '\n') = false)
    (hnb : ∀ c ∈ m, (c == '[') = false) :
    ∀ acc, msgScan acc m = some (acc ++ m, none) := by
  induction m with
  | nil => exact absurd rfl hne
  | cons c cs ih =>
    intro acc
    simp only [msgScan]
    rw [hnl c (by simp)]
    cases cs with
    | nil => simp [bracketEnd, spanP]
    | cons c2 cs2 =>
      have hbe : bracketEnd (c2 :: cs2) = none :=
        bracketEnd_none _ (fun d hd => hnb d (by simp [hd]))
      rw [hbe]
      have := ih (by simp) (fun d hd => hnl d (by simp [hd]))
        (fun d hd => hnb d (by simp [hd])) (acc ++ [c])
      simpa using this

theorem msgScan_with_rule (m rule : Str) (hne : m ≠ [])
    (hnl : ∀ c ∈ m, (c == '\n') = false)
    (hnb : ∀ c ∈ m, (c == '[') = false)
    (hlast : ∀ c, m.getLast? = some c → isJsWs c = false)
    (hrne : rule ≠ [])
    (hrall : ∀ c ∈ rule, (c != ']') = true) :
    ∀ acc, msgScan acc (m ++ ' ' :: '[' :: (rule ++ [']'])) =
      some (acc ++ m, some rule) := by
  induction m with
  | nil => exact absurd rfl hne
  | cons c cs ih =>
    intro acc
    simp only [List.cons_append, msgScan]
    rw [hnl c (by simp)]
    cases cs with
    | nil =>
      simp only [List.append_eq, List.nil_append]
      rw [bracketEnd_rule rule hrne hrall]
      simp
    | cons c2 cs2 =>
      simp only [List.append_eq, List.cons_append]
      have hlast' : ∀ d, (c2 :: cs2).getLast? = some d → isJsWs d = false := by
        intro d hd
        apply hlast
        rw [List.getLast?_cons_cons]
        exact hd
      have hex : ∃ x ∈ (c2 :: cs2), isJsWs x = false := by
        refine ⟨(c2 :: cs2).getLast (by simp), List.getLast_mem _, ?_⟩
        exact hlast' _ (List.getLast?_eq_getLast _ _)
      have hbe : bracketEnd ((c2 :: cs2) ++ (' ' :: '[' :: (rule ++ [']']))) = none :=
        bracketEnd_with_prefix_none _ _ hex (fun d hd => hnb d (by simp [hd]))
      rw [List.cons_append] at hbe
      rw [hbe]
      have := ih (by simp) (fun d hd => hnl d (by simp [hd]))
        (fun d hd => hnb d (by simp [hd])) hlast' (acc ++ [c])
      rw [List.cons_append] at this
      simpa using this

theorem parseTail_no_rule (msg : Str) (h : msgOk msg = true) :
    parseTail (' ' :: msg) = some (msg, none) := by
  obtain ⟨hne, hhd, -, hnl, hnb⟩ := msgOk_spec msg h
  have hspan : spanP isJsWs (' ' :: msg) = ([' '], msg) := by
    have := spanP_eq_of isJsWs [' '] msg
      (by intro c hc; simp only [List.mem_singleton] at hc; subst hc; decide)
      hhd
    simpa using this
  simp only [parseTail, hspan]
  simp only [List.isEmpty_cons, Bool.not_false, List.length_singleton,
    tailFrom, List.drop_succ_cons, List.drop_nil, List.nil_append]
  rw [msgScan_no_rule msg hne hnl hnb []]
  rfl

theorem parseTail_with_rule (msg rule : Str) (hm : msgOk msg = true)
    (hr : ruleOk rule = true) :
    parseTail (' ' :: (msg ++ ' ' :: '[' :: (rule ++ [']']))) =
      some (msg, some rule) := by
  obtain ⟨hne, hhd, hlast, hnl, hnb⟩ := msgOk_spec msg hm
  obtain ⟨hrne, hrall, -⟩ := ruleOk_spec rule hr
  have hspan : spanP isJsWs (' ' :: (msg ++ ' ' :: '[' :: (rule ++ [']']))) =
      ([' '], msg ++ ' ' :: '[' :: (rule ++ [']'])) := by
    have := spanP_eq_of isJsWs [' '] (msg ++ ' ' :: '[' :: (rule ++ [']']))
      (by intro c hc; simp only [List.mem_singleton] at hc; subst hc; decide)
      (by intro c hc
          cases msg with
          | nil => exact absurd rfl hne
          | cons a as =>
            simp only [List.cons_append, List.head?_cons, Option.some.injEq] at hc
            subst hc
            exact hhd a rfl)
    simpa using this
  simp only [parseTail, hspan]
  simp only [List.isEmpty_cons, Bool.not_false, List.length_singleton,
    tailFrom, List.drop_succ_cons, List.drop_nil, List.nil_append]
  rw [msgScan_with_rule msg rule hne hnl hnb hlast hrne hrall []]
  rfl

/-- A non-empty all-digit string (`\d+`). -/
def digitsOk (ds : Str) : Bool := !ds.isEmpty && ds.all isAsciiDigit

theorem digitsOk_spec (ds : Str) (h : digitsOk ds = true) :
    ds ≠ [] ∧ ∀ c ∈ ds, isAsciiDigit c = true := by
  simp only [digitsOk, Bool.and_eq_true] at h
  exact ⟨by intro he; subst he; simp at h, fun c hc => List.all_eq_true.mp h.2 c hc⟩

/-- The header line `<path>:<line>:<column>: <severity>: <msgPart>` with
single-space separators. -/
def headerLine (path ds1 ds2 sev msgPart : Str) : Str :=
  path ++ ':' :: (ds1 ++ ':' :: (ds2 ++ ':' :: ' ' :: (sev ++ ':' :: ' ' :: msgPart)))

/-- The optional trailing ` [<rule>]` of a header line. -/
def ruleSuffix (rule : Str) : Str := ' ' :: '[' :: (rule ++ [']'])

theorem matchWarningLine_header (path ds1 ds2 sev msgPart msg : Str)
    (ruleOpt : Option Str)
    (hpath : pathOk path = true) (h1 : digitsOk ds1 = true)
    (h2 : digitsOk ds2 = true)
    (hsevNe : sev ≠ []) (hsevAl : ∀ c ∈ sev, isAsciiAlpha c = true)
    (htail : parseTail (' ' :: msgPart) = some (msg, ruleOpt)) :
    matchWarningLine (headerLine path ds1 ds2 sev msgPart) =
      some ⟨path, ds1, ds2, sev, msg, ruleOpt⟩ := by
  obtain ⟨hd1ne, hd1all⟩ := digitsOk_spec ds1 h1
  obtain ⟨hd2ne, hd2all⟩ := digitsOk_spec ds2 h2
  have hd1E : ds1.isEmpty = false := by cases ds1 with
    | nil => exact absurd rfl hd1ne
    | cons a b => rfl
  have hd2E : ds2.isEmpty = false := by cases ds2 with
    | nil => exact absurd rfl hd2ne
    | cons a b => rfl
  have hsevE : sev.isEmpty = false := by cases sev with
    | nil => exact absurd rfl hsevNe
    | cons a b => rfl
  have hspan1 : spanP isAsciiDigit (ds1 ++ ':' :: (ds2 ++ ':' :: ' ' :: (sev ++ ':' :: ' ' :: msgPart))) =
      (ds1, ':' :: (ds2 ++ ':' :: ' ' :: (sev ++ ':' :: ' ' :: msgPart))) :=
    spanP_eq_of _ _ _ hd1all
      (by intro c hc; simp only [List.head?_cons, Option.some.injEq] at hc
          subst hc; decide)
  have hspan2 : spanP isAsciiDigit (ds2 ++ ':' :: ' ' :: (sev ++ ':' :: ' ' :: msgPart)) =
      (ds2, ':' :: ' ' :: (sev ++ ':' :: ' ' :: msgPart)) :=
    spanP_eq_of _ _ _ hd2all
      (by intro c hc; simp only [List.head?_cons, Option.some.injEq] at hc
          subst hc; decide)
  have hspanWs : spanP isJsWs (' ' :: (sev ++ ':' :: ' ' :: msgPart)) =
      ([' '], sev ++ ':' :: ' ' :: msgPart) := by
    have := spanP_eq_of isJsWs [' '] (sev ++ ':' :: ' ' :: msgPart)
      (by intro c hc; simp only [List.mem_singleton] at hc; subst hc; decide)
      (by intro c hc
          cases sev with
          | nil => exact absurd rfl hsevNe
          | cons a as =>
            simp only [List.cons_append, List.head?_cons, Option.some.injEq] at hc
            subst hc
            exact not_ws_of_alpha a (hsevAl a (by simp)))
    simpa using this
  have hspanSev : spanP isAsciiAlpha (sev ++ ':' :: ' ' :: msgPart) =
      (sev, ':' :: ' ' :: msgPart) :=
    spanP_eq_of _ _ _ hsevAl
      (by intro c hc; simp only [List.head?_cons, Option.some.injEq] at hc
          subst hc; decide)
  simp only [headerLine, matchWarningLine]
  rw [parsePathStart_of_pathOk path _ hpath]
  simp only [expectChar, hspan1, hspan2, hspanWs, hspanSev, htail, hd1E, hd2E,
    hsevE, List.isEmpty_cons, Bool.false_eq_true, if_false, beq_self_eq_true,
    if_true]

theorem pred_beq_false (p : Char → Bool) (c d : Char) (hc : p c = true)
    (hd : p d = false) : (c == d) = false := by
  rw [beq_eq_false_iff_ne]
  intro he
  subst he
  rw [hc] at hd
  cases hd

theorem splitOn_single (text : Str) (h : ∀ c ∈ text, (c == '\n') = false) :
    text.splitOn '\n' = [text] := by
  rw [List.splitOn]
  apply List.splitOnP_eq_single
  intro x hx
  simp [h x hx]

/-- The six fields of a diagnostic produced directly by the header-line
match (everything except the three optional context fields). -/
def coreFields (d : ClangTidyDiagnostic) : Str × Nat × Nat × Str × Str × Str :=
  (d.filePath, d.line, d.column, d.severity, d.message, d.checkName)

theorem enrichOne_coreFields (fsys : FileSystem) (d : ClangTidyDiagnostic) :
    coreFields (enrichOne fsys d) = coreFields d := by
  unfold enrichOne
  cases fsys d.filePath with
  | error e => rfl
  | ok lines =>
    simp only []
    split
    · split <;> split <;> rfl
    · rfl

theorem pathOk_no_newline (p : Str) (hp : pathOk p = true) :
    ∀ c ∈ p, (c == '\n') = false := by
  intro c hc
  match p with
  | [] => cases hc
  | [a] => simp [pathOk, sepRunOk] at hp
  | [a, b] =>
    simp only [pathOk, sepRunOk, Bool.and_eq_true, List.all_cons, List.all_nil,
      Bool.and_true, List.isEmpty_cons, Bool.not_false, and_true] at hp
    obtain ⟨hsep, hb1, hb2⟩ := hp
    rcases List.mem_cons.mp hc with rfl | hc2
    · rcases Bool.or_eq_true _ _ ▸ hsep with h | h
      · rw [beq_iff_eq.mp h]; decide
      · rw [beq_iff_eq.mp h]; decide
    · rcases List.mem_cons.mp hc2 with rfl | hc3
      · simpa [bne] using hb2
      · cases hc3
  | a :: b :: c2 :: rest =>
    by_cases hb : b == ':'
    · have hb' : b = ':' := beq_iff_eq.mp hb
      subst hb'
      simp only [pathOk] at hp
      rw [if_pos (by exact rfl)] at hp
      simp only [Bool.and_eq_true] at hp
      obtain ⟨⟨⟨ha, hsep⟩, -⟩, hall⟩ := hp
      rcases List.mem_cons.mp hc with rfl | hc2
      · exact pred_beq_false isAsciiAlpha _ _ ha (by decide)
      · rcases List.mem_cons.mp hc2 with rfl | hc3
        · decide
        · rcases List.mem_cons.mp hc3 with rfl | hc4
          · rcases Bool.or_eq_true _ _ ▸ hsep with h | h
            · rw [beq_iff_eq.mp h]; decide
            · rw [beq_iff_eq.mp h]; decide
          · have := List.all_eq_true.mp hall c hc4
            simp only [Bool.and_eq_true] at this
            simpa [bne] using this.2
    · simp only [pathOk] at hp
      rw [if_neg (by simpa using hb)] at hp
      simp only [sepRunOk, Bool.and_eq_true] at hp
      obtain ⟨⟨hsep, -⟩, hall⟩ := hp
      rcases List.mem_cons.mp hc with rfl | hc2
      · rcases Bool.or_eq_true _ _ ▸ hsep with h | h
        · rw [beq_iff_eq.mp h]; decide
        · rw [beq_iff_eq.mp h]; decide
      · have := List.all_eq_true.mp hall c hc2
        simp only [Bool.and_eq_true] at this
        simpa [bne] using this.2

theorem pathOk_head_nonws (p : Str) (hp : pathOk p = true) :
    ∃ c r, p = c :: r ∧ isJsWs c = false := by
  match p with
  | [] => simp [pathOk, sepRunOk] at hp
  | a :: rest =>
    refine ⟨a, rest, rfl, ?_⟩
    match rest with
    | [] => simp [pathOk, sepRunOk] at hp
    | [b] =>
      simp only [pathOk, sepRunOk, Bool.and_eq_true] at hp
      rcases Bool.or_eq_true _ _ ▸ hp.1.1 with h | h
      · rw [beq_iff_eq.mp h]; decide
      · rw [beq_iff_eq.mp h]; decide
    | b :: c2 :: rest2 =>
      by_cases hb : b == ':'
      · have hb' : b = ':' := beq_iff_eq.mp hb
        subst hb'
        simp only [pathOk] at hp
        rw [if_pos (by exact rfl)] at hp
        simp only [Bool.and_eq_true] at hp
        exact not_ws_of_alpha a hp.1.1.1
      · simp only [pathOk] at hp
        rw [if_neg (by simpa using hb)] at hp
        simp only [sepRunOk, Bool.and_eq_true] at hp
        rcases Bool.or_eq_true _ _ ▸ hp.1.1 with h | h
        · rw [beq_iff_eq.mp h]; decide
        · rw [beq_iff_eq.mp h]; decide

theorem isEmpty_false_of_ne_nil {l : Str} (h : l ≠ []) : l.isEmpty = false := by
  cases l with
  | nil => exact absurd rfl h
  | cons a b => rfl

theorem transform_header_line (fsys : FileSystem)
    (path ds1 ds2 sev msgPart msg : Str) (ruleOpt : Option Str)
    (hpath : pathOk path = true) (h1 : digitsOk ds1 = true)
    (h2 : digitsOk ds2 = true)
    (hsev : sev = "error".data ∨ sev = "warning".data ∨ sev = "note".data ∨
      sev = "fatal".data)
    (htail : parseTail (' ' :: msgPart) = some (msg, ruleOpt))
    (hnlPart : ∀ c ∈ msgPart, (c == '\n') = false)
    (hmsgtrim : jsTrim msg = msg) :
    transformTextToDiagnostics fsys (headerLine path ds1 ds2 sev msgPart) =
      (enrichDiagnosticsWithSourceCode fsys
        [{ filePath := path, line := digitsToNat ds1,
           column := digitsToNat ds2, severity := sev, message := msg,
           checkName := ruleOpt.getD [] }], 1, 0) := by
  obtain ⟨hd1ne, hd1all⟩ := digitsOk_spec ds1 h1
  obtain ⟨hd2ne, hd2all⟩ := digitsOk_spec ds2 h2
  have hfacts : sev ≠ [] ∧ (∀ c ∈ sev, isAsciiAlpha c = true) ∧
      sev.map Char.toLower = sev ∧ validateSeverity sev = some sev ∧
      (∀ c ∈ sev, (c == '\n') = false) := by
    rcases hsev with rfl | rfl | rfl | rfl <;>
      exact ⟨by decide, by decide, by decide, by decide, by decide⟩
  obtain ⟨hsevNe, hsevAl, hsevLower, hsevValid, hsevNl⟩ := hfacts
  have hnlLine : ∀ c ∈ headerLine path ds1 ds2 sev msgPart,
      (c == '\n') = false := by
    intro c hc
    simp only [headerLine, List.mem_append, List.mem_cons] at hc
    rcases hc with hc | hc
    · exact pathOk_no_newline path hpath c hc
    rcases hc with rfl | hc
    · decide
    rcases hc with hc | hc
    · exact pred_beq_false isAsciiDigit _ _ (hd1all c hc) (by decide)
    rcases hc with rfl | hc
    · decide
    rcases hc with hc | hc
    · exact pred_beq_false isAsciiDigit _ _ (hd2all c hc) (by decide)
    rcases hc with rfl | hc
    · decide
    rcases hc with rfl | hc
    · decide
    rcases hc with hc | hc
    · exact pred_beq_false isAsciiAlpha _ _ (hsevAl c hc) (by decide)
    rcases hc with rfl | hc
    · decide
    rcases hc with rfl | hc
    · decide
    · exact hnlPart c hc
  have hmatch := matchWarningLine_header path ds1 ds2 sev msgPart msg ruleOpt
    hpath h1 h2 hsevNe hsevAl htail
  obtain ⟨c0, r0, hpeq, hc0⟩ := pathOk_head_nonws path hpath
  have hheadline : headerLine path ds1 ds2 sev msgPart =
      c0 :: (r0 ++ ':' :: (ds1 ++ ':' :: (ds2 ++ ':' :: ' ' ::
        (sev ++ ':' :: ' ' :: msgPart)))) := by
    rw [headerLine, hpeq]
    rfl
  have htrimNe : jsTrim (headerLine path ds1 ds2 sev msgPart) ≠ [] := by
    apply jsTrim_ne_nil _ c0 _ hc0
    rw [hheadline]
    exact List.mem_cons_self _ _
  have htrimE : (jsTrim (headerLine path ds1 ds2 sev msgPart)).isEmpty = false :=
    isEmpty_false_of_ne_nil htrimNe
  rw [transformTextToDiagnostics]
  rw [splitOn_single _ hnlLine]
  rw [List.foldl_cons, List.foldl_nil]
  rw [stepLine]
  rw [htrimE]
  simp only [Bool.false_eq_true, if_false]
  rw [hmatch]
  simp only [hsevLower, hsevValid]
  rw [mkDiagnostic]
  simp only [hmsgtrim]
  rfl

theorem parseClangTidyText_eq_transform (fsys : FileSystem) (text : Str) :
    parseClangTidyText fsys text = (transformTextToDiagnostics fsys text).1 :=
  rfl

/-- C4: a header line with path, line, column, a known severity token,
message and rule parses to a Diagnostic whose six fields are exactly the
line's literal component values; without the trailing ` [<rule>]` the
same line parses with an empty rule identifier.  (The hypotheses pin the
line to an unambiguous decomposition: the path matches the regex's path
group, line/column are digit runs, the message is trim-invariant and
contains no newline or `[`, the rule is non-empty without `]` or
newline.) -/
theorem parse_header_line_roundtrip (fsys : FileSystem)
    (path ds1 ds2 sev msg rule : Str)
    (hpath : pathOk path = true) (h1 : digitsOk ds1 = true)
    (h2 : digitsOk ds2 = true)
    (hsev : sev = "error".data ∨ sev = "warning".data ∨ sev = "note".data ∨
      sev = "fatal".data)
    (hmsg : msgOk msg = true) (hrule : ruleOk rule = true) :
    (parseClangTidyText fsys
        (headerLine path ds1 ds2 sev (msg ++ ruleSuffix rule))).map coreFields =
      [(path, digitsToNat ds1, digitsToNat ds2, sev, msg, rule)] ∧
    (parseClangTidyText fsys (headerLine path ds1 ds2 sev msg)).map coreFields =
      [(path, digitsToNat ds1, digitsToNat ds2, sev, msg, [])] := by
  obtain ⟨hmne, hmhd, hmlast, hmnl, hmnb⟩ := msgOk_spec msg hmsg
  obtain ⟨hrne, hrall, hrnl⟩ := ruleOk_spec rule hrule
  have hmsgtrim : jsTrim msg = msg := jsTrim_eq_self msg hmhd hmlast
  constructor
  · have htail : parseTail (' ' :: (msg ++ ruleSuffix rule)) =
        some (msg, some rule) := parseTail_with_rule msg rule hmsg hrule
    have hnlPart : ∀ c ∈ msg ++ ruleSuffix rule, (c == '\n') = false := by
      intro c hc
      rcases List.mem_append.mp hc with hc | hc
      · exact hmnl c hc
      · simp only [ruleSuffix, List.mem_cons, List.mem_append,
          List.mem_singleton] at hc
        rcases hc with rfl | hc
        · decide
        rcases hc with rfl | hc
        · decide
        rcases hc with hc | hc
        · exact hrnl c hc
        · rcases hc with rfl | hc
          · decide
          · cases hc
    rw [parseClangTidyText_eq_transform,
      transform_header_line fsys path ds1 ds2 sev (msg ++ ruleSuffix rule) msg
        (some rule) hpath h1 h2 hsev htail hnlPart hmsgtrim]
    simp only [enrichDiagnosticsWithSourceCode, List.map_cons, List.map_nil,
      List.map_map]
    rw [show ∀ d, coreFields (enrichOne fsys d) = coreFields d from
      enrichOne_coreFields fsys]
    rfl
  · have htail : parseTail (' ' :: msg) = some (msg, none) :=
      parseTail_no_rule msg hmsg
    rw [parseClangTidyText_eq_transform,
      transform_header_line fsys path ds1 ds2 sev msg msg none hpath h1 h2
        hsev htail hmnl hmsgtrim]
    simp only [enrichDiagnosticsWithSourceCode, List.map_cons, List.map_nil,
      List.map_map]
    rw [show ∀ d, coreFields (enrichOne fsys d) = coreFields d from
      enrichOne_coreFields fsys]
    rfl

/-- Witness for C4 at a concrete header line. -/
theorem parse_header_line_roundtrip_witness :
    (parseClangTidyText failFs
        (headerLine "/p/f.cpp".data "5".data "9".data "warning".data
          ("use of x".data ++ ruleSuffix "bugprone-x".data))).map coreFields =
      [("/p/f.cpp".data, 5, 9, "warning".data, "use of x".data,
        "bugprone-x".data)] := by
  have h := parse_header_line_roundtrip failFs "/p/f.cpp".data "5".data
    "9".data "warning".data "use of x".data "bugprone-x".data (by decide)
    (by decide) (by decide) (Or.inr (Or.inl rfl)) (by decide) (by decide)
  rw [h.1]
  rfl

theorem parsePathStart_head_nonws (l : Str) (x : Str × Str)
    (h : parsePathStart l = some x) :
    ∃ c r, l = c :: r ∧ isJsWs c = false := by
  match l with
  | [] => simp [parsePathStart, parseSepRun] at h
  | [d] =>
    simp only [parsePathStart, parseSepRun] at h
    split at h
    · simp [spanP] at h
    · cases h
  | d :: c1 :: rest =>
    refine ⟨d, c1 :: rest, rfl, ?_⟩
    simp only [parsePathStart] at h
    split at h
    · rename_i hcond
      simp only [Bool.and_eq_true] at hcond
      exact not_ws_of_alpha d hcond.2
    · simp only [parseSepRun] at h
      split at h
      · rename_i hsep
        rcases Bool.or_eq_true _ _ ▸ hsep with hh | hh
        · rw [beq_iff_eq.mp hh]; decide
        · rw [beq_iff_eq.mp hh]; decide
      · cases h

theorem matchWarningLine_head_nonws (l : Str) (m : WarningMatch)
    (h : matchWarningLine l = some m) :
    ∃ c r, l = c :: r ∧ isJsWs c = false := by
  unfold matchWarningLine at h
  cases hps : parsePathStart l with
  | none => rw [hps] at h; cases h
  | some x => exact parsePathStart_head_nonws l x hps

/-- C5: a line that matches the header pattern but whose severity token
is unknown yields no Diagnostic and bumps the separate drop counter
(`invalidSeverities`), resetting the current-diagnostic state; in
particular a text consisting only of a header line with severity
`oddity` produces zero diagnostics with drop count 1, and parsing
continues past the dropped line (a following valid header still
parses). -/
theorem unknown_severity_dropped :
    (∀ (st : ParseState) (l : Str) (m : WarningMatch),
      matchWarningLine l = some m →
      validateSeverity (m.severityStr.map Char.toLower) = none →
      stepLine st l =
        { st with matchedWarnings := st.matchedWarnings + 1,
                  invalidSeverities := st.invalidSeverities + 1,
                  cur := false }) ∧
    transformTextToDiagnostics failFs
      "/p/f.cpp:5:9: oddity: something bad".data = ([], 1, 1) ∧
    ((transformTextToDiagnostics failFs
        "/p/f.cpp:5:9: oddity: bad\n/p/f.cpp:6:1: warning: ok [r-c]".data).1.map
          coreFields =
        [("/p/f.cpp".data, 6, 1, "warning".data, "ok".data, "r-c".data)] ∧
      (transformTextToDiagnostics failFs
        "/p/f.cpp:5:9: oddity: bad\n/p/f.cpp:6:1: warning: ok [r-c]".data).2 =
        (2, 1)) := by
  refine ⟨?_, by rfl, by rfl, by rfl⟩
  intro st l m hmatch hval
  obtain ⟨c0, r0, hleq, hc0⟩ := matchWarningLine_head_nonws l m hmatch
  have htrimNe : jsTrim l ≠ [] := by
    apply jsTrim_ne_nil _ c0 _ hc0
    rw [hleq]
    exact List.mem_cons_self _ _
  rw [stepLine, isEmpty_false_of_ne_nil htrimNe]
  simp only [Bool.false_eq_true, if_false]
  simp only [hmatch, hval]

theorem spanP_all (p : Char → Bool) (l : Str) :
    ∀ c ∈ (spanP p l).1, p c = true := by
  induction l with
  | nil => intro c hc; cases hc
  | cons a as ih =>
    intro c hc
    by_cases hpa : p a = true
    · simp only [spanP, if_pos hpa] at hc
      rcases List.mem_cons.mp hc with rfl | hc2
      · exact hpa
      · exact ih c hc2
    · simp only [spanP, if_neg hpa] at hc
      cases hc

theorem mem_of_mem_spanP_fst (p : Char → Bool) (l : Str) (x : Char)
    (hx : x ∈ (spanP p l).1) : x ∈ l := by
  rw [← spanP_append p l]
  exact List.mem_append.mpr (Or.inl hx)

theorem matchWarningLine_ws_head (c : Char) (r : Str) (hc : isJsWs c = true) :
    matchWarningLine (c :: r) = none := by
  cases hps : parsePathStart (c :: r) with
  | none => simp [matchWarningLine, hps]
  | some x =>
    obtain ⟨c', r', heq, hws⟩ := parsePathStart_head_nonws _ x hps
    have : c = c' := (List.cons.injEq _ _ _ _ ▸ heq).1
    subst this
    rw [hc] at hws
    cases hws

theorem isCodeLine_parts (l : Str) (h : isCodeLine l = true) :
    ∃ c0 c1 c2 rest, l = c0 :: c1 :: c2 :: rest ∧ isJsWs c0 = true ∧
      ∃ x ∈ rest, isAsciiDigit x = true := by
  match l with
  | [] => simp [isCodeLine] at h
  | [_] => simp [isCodeLine] at h
  | [_, _] => simp [isCodeLine] at h
  | c0 :: c1 :: c2 :: rest =>
    simp only [isCodeLine, Bool.and_eq_true] at h
    refine ⟨c0, c1, c2, rest, rfl, h.1.1.1, ?_⟩
    have hne : (spanP isAsciiDigit rest).1 ≠ [] := by
      intro hnil
      have := h.2.1
      rw [hnil] at this
      simp at this
    cases hds : (spanP isAsciiDigit rest).1 with
    | nil => exact absurd hds hne
    | cons x xs =>
      refine ⟨x, ?_, ?_⟩
      · exact mem_of_mem_spanP_fst _ _ _ (by rw [hds]; simp)
      · exact spanP_all _ _ x (by rw [hds]; simp)

theorem afterLastBar_append (pre post : Str) (h : '|' ∉ post) :
    afterLastBar (pre ++ '|' :: post) = post := by
  unfold afterLastBar
  rw [List.reverse_append, List.reverse_cons, List.append_assoc,
    List.singleton_append]
  rw [takeWhile_append_stop _ post.reverse '|' pre.reverse
    (by intro c hc
        rw [bne_iff_ne]
        intro he
        subst he
        exact h (List.mem_reverse.mp hc))
    (by decide)]
  exact List.reverse_reverse post

/-- C6 amended: while a diagnostic is current, a line accepted by the
code-line test (exactly three leading whitespace characters, then
digits, whitespace and a pipe) stores, as the diagnostic's source-line
text, the text after the LAST pipe of the line, trimmed — falling back
to the whole line when that trims to the empty string. -/
theorem code_line_sets_codeLineFull (st : ParseState)
    (d : ClangTidyDiagnostic) (tail : List ClangTidyDiagnostic) (l : Str)
    (hcur : st.cur = true) (hrev : st.revDiags = d :: tail)
    (hcode : isCodeLine l = true) :
    stepLine st l =
      { st with revDiags :=
          { d with codeLineFull := some (codePart l) } :: tail } ∧
    ∀ pre post, l = pre ++ '|' :: post → '|' ∉ post →
      codePart l = if (jsTrim post).isEmpty then l else jsTrim post := by
  constructor
  · obtain ⟨c0, c1, c2, rest, hleq, hws0, x, hxmem, hxdig⟩ :=
      isCodeLine_parts l hcode
    have hmatch : matchWarningLine l = none := by
      rw [hleq]; exact matchWarningLine_ws_head c0 _ hws0
    have htrimNe : jsTrim l ≠ [] := by
      apply jsTrim_ne_nil _ x _ (not_ws_of_digit x hxdig)
      rw [hleq]; simp [hxmem]
    rw [stepLine, isEmpty_false_of_ne_nil htrimNe]
    simp only [Bool.false_eq_true, if_false]
    simp only [hmatch, hcur, hrev, hcode, if_true]
  · intro pre post hl hpost
    rw [codePart, hl, afterLastBar_append pre post hpost, ← hl]

/-- C6 counterexample: (a) the text after the first pipe is not what is
stored when the source line itself contains pipes — `   5 | a||b`
stores `b`; (b) a code-context line with a single leading space —
` 5 | code` — does not set the source-line text at all. -/
theorem code_line_claim_counterexample :
    (transformTextToDiagnostics failFs
        "/p/f.cpp:5:9: warning: w\n   5 | a||b".data).1.map
          (fun d => d.codeLineFull) = [some "b".data] ∧
    (transformTextToDiagnostics failFs
        "/p/f.cpp:5:9: warning: w\n 5 | code".data).1.map
          (fun d => d.codeLineFull) = [none] :=
  ⟨rfl, rfl⟩

/-- A concrete parsed diagnostic used by witnesses. -/
def sampleDiag : ClangTidyDiagnostic :=
  { filePath := "/p/f.cpp".data, line := 5, column := 9,
    severity := "warning".data, message := "w".data, checkName := [] }

/-- Witness for C6 (amended) at a concrete state and line. -/
theorem code_line_sets_codeLineFull_witness :
    stepLine ⟨[sampleDiag], true, 1, 0⟩ "   5 | a||b".data =
      ⟨[{ sampleDiag with codeLineFull := some "b".data }], true, 1, 0⟩ ∧
    codePart "   5 | a||b".data =
      (if (jsTrim "b".data).isEmpty then "   5 | a||b".data
       else jsTrim "b".data) := by
  have h := code_line_sets_codeLineFull ⟨[sampleDiag], true, 1, 0⟩ sampleDiag
    [] "   5 | a||b".data rfl rfl (by decide)
  exact ⟨h.1, h.2 "   5 | a|".data "b".data (by decide) (by decide)⟩

theorem enrichOne_no_overwrite (fsys : FileSystem) (d : ClangTidyDiagnostic)
    (h1 : truthy d.codeLineFull = true) (h2 : truthy d.caretLine = true) :
    enrichOne fsys d = d := by
  unfold enrichOne
  cases fsys d.filePath with
  | error e => rfl
  | ok lines =>
    simp only [h1, h2, if_true]
    split <;> rfl

theorem enrichOne_codeLineFull_preserved (fsys : FileSystem)
    (d : ClangTidyDiagnostic) (h : truthy d.codeLineFull = true) :
    (enrichOne fsys d).codeLineFull = d.codeLineFull := by
  unfold enrichOne
  cases fsys d.filePath with
  | error e => rfl
  | ok lines =>
    simp only [h, if_true]
    split
    · split <;> rfl
    · rfl

theorem enrichOne_caretLine_preserved (fsys : FileSystem)
    (d : ClangTidyDiagnostic) (h : truthy d.caretLine = true) :
    (enrichOne fsys d).caretLine = d.caretLine := by
  unfold enrichOne
  cases fsys d.filePath with
  | error e => rfl
  | ok lines =>
    simp only []
    split
    · by_cases hc : truthy d.codeLineFull = true
      · simp only [hc, if_true, h, if_true]
      · simp only [hc, Bool.false_eq_true, if_false]
        rw [if_pos (by simpa using h)]
    · rfl

/-- C7: enrichment never changes a diagnostic's source-line text or
position-indicator text when those fields are already set (non-empty):
each field is preserved individually, and on a list whose diagnostics
already carry both fields a (re-)run of enrichment is the identity —
idempotence on already-enriched diagnostics. -/
theorem enrichment_no_overwrite :
    (∀ (fsys : FileSystem) (d : ClangTidyDiagnostic),
      truthy d.codeLineFull = true →
        (enrichOne fsys d).codeLineFull = d.codeLineFull) ∧
    (∀ (fsys : FileSystem) (d : ClangTidyDiagnostic),
      truthy d.caretLine = true →
        (enrichOne fsys d).caretLine = d.caretLine) ∧
    (∀ (fsys : FileSystem) (ds : List ClangTidyDiagnostic),
      (∀ d ∈ ds, truthy d.codeLineFull = true ∧ truthy d.caretLine = true) →
      enrichDiagnosticsWithSourceCode fsys ds = ds) := by
  refine ⟨enrichOne_codeLineFull_preserved, enrichOne_caretLine_preserved, ?_⟩
  intro fsys ds h
  unfold enrichDiagnosticsWithSourceCode
  rw [List.map_congr_left
    (fun d hd => enrichOne_no_overwrite fsys d (h d hd).1 (h d hd).2)]
  exact List.map_id ds

/-- A diagnostic that already carries source-line and caret text. -/
def enrichedDiag : ClangTidyDiagnostic :=
  { filePath := "/p/f.cpp".data, line := 5, column := 9,
    severity := "warning".data, message := "w".data, checkName := [],
    codeLineFull := some "int x;".data, caretLine := some "    ^".data }

/-- Witness for C7 at a concrete already-enriched diagnostic, under a
file system that could otherwise supply different context. -/
def witnessFs : FileSystem := fun _ => .ok ["other line".data]

theorem enrichment_no_overwrite_witness :
    (enrichOne witnessFs enrichedDiag).codeLineFull =
      enrichedDiag.codeLineFull ∧
    (enrichOne witnessFs enrichedDiag).caretLine = enrichedDiag.caretLine ∧
    enrichDiagnosticsWithSourceCode witnessFs [enrichedDiag] =
      [enrichedDiag] :=
  ⟨enrichment_no_overwrite.1 witnessFs enrichedDiag (by decide),
   enrichment_no_overwrite.2.1 witnessFs enrichedDiag (by decide),
   enrichment_no_overwrite.2.2 witnessFs [enrichedDiag]
     (by intro d hd
         simp only [List.mem_singleton] at hd
         subst hd
         exact ⟨by decide, by decide⟩)⟩

/-- Witness for C5: the general dropped-severity step at a concrete
state and line. -/
theorem unknown_severity_dropped_witness :
    stepLine ⟨[], false, 0, 0⟩ "/p/f.cpp:1:2: oddity: x".data =
      ⟨[], false, 1, 1⟩ :=
  unknown_severity_dropped.1 ⟨[], false, 0, 0⟩ "/p/f.cpp:1:2: oddity: x".data
    ⟨"/p/f.cpp".data, "1".data, "2".data, "oddity".data, "x".data, none⟩
    rfl rfl

/-- C10: the text-to-diagnostics transformation is total — every
fallible step (the source-file reads of the enrichment pass) is already
absorbed inside `enrichOne`, which returns the diagnostic unchanged on a
read error — so the computation guarded by the try/catch of
`parseClangTidyText` always yields `.ok` and the parser returns a
(possibly empty) diagnostic list for every input string and every file
system, propagating no exception. -/
theorem parseClangTidyText_no_throw (fsys : FileSystem) (text : Str) :
    transformTextToDiagnosticsE fsys text =
      .ok (transformTextToDiagnostics fsys text) ∧
    parseClangTidyText fsys text = (transformTextToDiagnostics fsys text).1 ∧
    (∀ (d : ClangTidyDiagnostic) (e : Str), fsys d.filePath = .error e →
      enrichOne fsys d = d) := by
  refine ⟨rfl, rfl, ?_⟩
  intro d e he
  unfold enrichOne
  rw [he]

/-- Witness for C10: a failing read leaves the diagnostic unchanged. -/
theorem parseClangTidyText_no_throw_witness :
    enrichOne failFs sampleDiag = sampleDiag :=
  (parseClangTidyText_no_throw failFs []).2.2 sampleDiag "ENOENT".data rfl
